import Mathlib

/-!
Verification of the brace balance checker in `tools/analyze_template.py`.

The program reads a document as a list of lines and keeps a stack of open
control-flow directives.  Per line it runs two regex checks:

* open pattern  : `@(if|for|switch|case|empty|else)\b\s*(\([^\)]*\))?\s*\{`
  searched anywhere in the line (Python `re.search`); on a match the
  captured keyword and the 1-based line number are appended to the stack;
* close pattern : `^\s*\}\s*(?:@else|@empty|@case)?` anchored at the start
  of the line; on a match the stack is popped if non-empty, otherwise the
  line `Unmatched closing brace at <i>` is printed.

After the last line, if the stack is non-empty the program prints
`Unclosed control blocks:` followed by `<keyword> opened at <i>` for each
remaining entry in insertion order; otherwise it prints
`All control blocks closed`.

Lines are modelled as `List Char` (Python `str.splitlines` output, so no
newline characters occur inside a line); printed output is a
`List (List Char)`.  Python's `\s` and `\w` are Unicode-aware; the
embedding uses their ASCII meaning, which agrees on all inputs considered
here.
-/

/-- Whitespace characters recognised by the regex class `\s` (ASCII part). -/
def isPySpace (c : Char) : Bool :=
  c == ' ' || c == '\t' || c == '\n' || c == '\r' || c == '\x0b' || c == '\x0c'

/-- Word characters recognised by the regex class `\w` (ASCII part),
used for the word boundary `\b` after the directive keyword. -/
def isWordChar (c : Char) : Bool :=
  c.isAlphanum || c == '_'

/-- The six directive keywords, in the order they appear in the regex
alternation `(if|for|switch|case|empty|else)`. -/
def directiveKeywords : List (List Char) :=
  [['i', 'f'], ['f', 'o', 'r'], ['s', 'w', 'i', 't', 'c', 'h'], ['c', 'a', 's', 'e'],
   ['e', 'm', 'p', 't', 'y'], ['e', 'l', 's', 'e']]

/-- Matches a literal prefix: `takesPrefix p cs = some rest` when
`cs = p ++ rest`, and `none` otherwise. -/
def takesPrefix : List Char → List Char → Option (List Char)
  | [], cs => some cs
  | _ :: _, [] => none
  | p :: ps, c :: cs => if p = c then takesPrefix ps cs else none

/-- The word boundary `\b` placed after a keyword (whose last character is
a word character): it holds at end of line or before a non-word character. -/
def wordBoundaryOk : List Char → Bool
  | [] => true
  | c :: _ => !isWordChar c

/-- Tries the keyword alternatives in regex order at the current position;
returns the matched keyword and the remainder of the line.  No keyword is
a prefix of another, so at most one alternative can match a given text;
when the word boundary fails the remaining alternatives are still tried,
exactly as the regex engine backtracks through the alternation. -/
def findKeyword (cs : List Char) : List (List Char) → Option (List Char × List Char)
  | [] => none
  | kw :: kws =>
    match takesPrefix kw cs with
    | some rest => if wordBoundaryOk rest then some (kw, rest) else findKeyword cs kws
    | none => findKeyword cs kws

/-- Matches the tail `\s*(\([^\)]*\))?\s*\{` of the open pattern.  The
optional group, when taken, runs from the first `(` after the whitespace
to the first `)` after it (the class `[^\)]*` cannot cross a `)`); when
the group cannot complete, the fallback is an immediate `{`. -/
def matchOpenTail (cs : List Char) : Bool :=
  match cs.dropWhile isPySpace with
  | '{' :: _ => true
  | '(' :: t =>
    match t.dropWhile (fun c => c != ')') with
    | ')' :: u =>
      match u.dropWhile isPySpace with
      | '{' :: _ => true
      | _ => false
    | _ => false
  | _ => false

/-- Matches the whole open pattern anchored at the current position: an
`@`, then a keyword with a word boundary, then `matchOpenTail`.  Returns
the captured keyword. -/
def matchOpenAt : List Char → Option (List Char)
  | [] => none
  | c :: cs =>
    if c = '@' then
      match findKeyword cs directiveKeywords with
      | some (kw, rest) => if matchOpenTail rest then some kw else none
      | none => none
    else none

/-- Python `re.search` for the open pattern: the match is tried at every
position from the left; the first position where the whole pattern
matches wins, and its captured keyword is returned. -/
def searchOpen : List Char → Option (List Char)
  | [] => none
  | c :: cs =>
    match matchOpenAt (c :: cs) with
    | some kw => some kw
    | none => searchOpen cs

/-- Python `re.search` for the close pattern `^\s*\}\s*(?:@else|@empty|@case)?`.
The pattern is anchored at the start of the line, and everything after
`\}` is optional, so the search succeeds exactly when `\s*\}` matches at
the start. -/
def searchClose (l : List Char) : Bool :=
  match l.dropWhile isPySpace with
  | '}' :: _ => true
  | _ => false

/-- State of the scan: the stack of `(keyword, line-number)` entries
(Python appends and pops at the end of the list, so the list front is the
oldest entry) and the lines printed so far. -/
structure ScanState where
  stack : List (List Char × Nat)
  output : List (List Char)
deriving Repr, DecidableEq

/-- The message `Unmatched closing brace at <i>`
(Python `print('Unmatched closing brace at', i)`). -/
def unmatchedMsg (i : Nat) : List Char :=
  "Unmatched closing brace at ".toList ++ Nat.toDigits 10 i

/-- The message `<keyword> opened at <i>`
(Python `print(tok, 'opened at', i)`). -/
def openedMsg (kw : List Char) (i : Nat) : List Char :=
  kw ++ " opened at ".toList ++ Nat.toDigits 10 i

/-- The header line of the unclosed-blocks report. -/
def unclosedHeader : List Char :=
  "Unclosed control blocks:".toList

/-- The all-balanced message. -/
def allClosedMsg : List Char :=
  "All control blocks closed".toList

/-- The open check of one loop iteration: on a search hit, push the
captured keyword with the current line number. -/
def stepOpen (i : Nat) (l : List Char) (st : ScanState) : ScanState :=
  match searchOpen l with
  | some kw => { st with stack := st.stack ++ [(kw, i)] }
  | none => st

/-- The close check of one loop iteration: on a search hit, pop if the
stack is non-empty, else print the unmatched-closer message. -/
def stepClose (i : Nat) (l : List Char) (st : ScanState) : ScanState :=
  if searchClose l then
    if st.stack.isEmpty then
      { st with output := st.output ++ [unmatchedMsg i] }
    else
      { st with stack := st.stack.dropLast }
  else st

/-- One iteration of the loop body: the open check runs first, the close
check second, on the state the open check produced. -/
def stepLine (i : Nat) (l : List Char) (st : ScanState) : ScanState :=
  stepClose i l (stepOpen i l st)

/-- The scan loop over the remaining lines, `i` being the 1-based number
of the next line (`enumerate(lines, 1)`). -/
def scanLines : Nat → List (List Char) → ScanState → ScanState
  | _, [], st => st
  | i, l :: ls, st => scanLines (i + 1) ls (stepLine i l st)

/-- The end-of-scan report: the unclosed-blocks listing when the stack is
non-empty (entries in insertion order, i.e. front first), the all-balanced
message otherwise. -/
def finalReport (st : ScanState) : List (List Char) :=
  if st.stack.isEmpty then
    st.output ++ [allClosedMsg]
  else
    st.output ++ unclosedHeader :: st.stack.map (fun p => openedMsg p.1 p.2)

/-- The initial state: empty stack, nothing printed. -/
def initState : ScanState := { stack := [], output := [] }

/-- The whole program on a document given as a list of lines: run the
loop from line 1, then emit the end-of-scan report. -/
def scan (doc : List (List Char)) : List (List Char) :=
  finalReport (scanLines 1 doc initState)

/-- Number of lines of a document on which the open-pattern search
succeeds (each such line pushes exactly one entry). -/
def opensCount (ls : List (List Char)) : Nat :=
  ls.countP (fun l => (searchOpen l).isSome)

/-- Number of pops the loop performs over the given lines, starting from
the given line number and state: a pop happens on a line whose close
check fires while the stack (after the open check of the same line) is
non-empty. -/
def popsCount : Nat → List (List Char) → ScanState → Nat
  | _, [], _ => 0
  | i, l :: ls, st =>
    (if searchClose l && !(stepOpen i l st).stack.isEmpty then 1 else 0)
      + popsCount (i + 1) ls (stepLine i l st)

/-- Big-step relation of the scan loop, relating a loop configuration
(next line number, remaining lines, current state) to the state after the
loop has consumed all remaining lines.  It mirrors `scanLines` as a
relation, so that determinism of the loop is a statement and not a
definitional triviality. -/
inductive ScanRel : Nat → List (List Char) → ScanState → ScanState → Prop
  | nil (i : Nat) (st : ScanState) : ScanRel i [] st st
  | cons (i : Nat) (l : List Char) (ls : List (List Char)) (st st' : ScanState) :
      ScanRel (i + 1) ls (stepLine i l st) st' → ScanRel i (l :: ls) st st'

/-! ### Helper lemmas about the pattern matchers -/

theorem searchOpen_cons (c : Char) (cs : List Char) :
    searchOpen (c :: cs) =
      match matchOpenAt (c :: cs) with
      | some kw => some kw
      | none => searchOpen cs := rfl

theorem takesPrefix_append (p r : List Char) : takesPrefix p (p ++ r) = some r := by
  induction p with
  | nil => rfl
  | cons c cs ih => simp [takesPrefix, ih]

theorem findKeyword_mem {cs kw rest : List Char} :
    ∀ {ks : List (List Char)}, findKeyword cs ks = some (kw, rest) → kw ∈ ks := by
  intro ks
  induction ks with
  | nil => intro h; simp [findKeyword] at h
  | cons k ks ih =>
    intro h
    unfold findKeyword at h
    split at h
    · split at h
      · cases h; exact List.mem_cons_self _ _
      · exact List.mem_cons_of_mem _ (ih h)
    · exact List.mem_cons_of_mem _ (ih h)

theorem matchOpenAt_mem {l kw : List Char} (h : matchOpenAt l = some kw) :
    kw ∈ directiveKeywords := by
  cases l with
  | nil => simp [matchOpenAt] at h
  | cons c cs =>
    simp only [matchOpenAt] at h
    by_cases hc : c = '@'
    · rw [if_pos hc] at h
      cases hf : findKeyword cs directiveKeywords with
      | none =>
        rw [hf] at h
        have h2 : (none : Option (List Char)) = some kw := h
        cases h2
      | some p =>
        rw [hf] at h
        obtain ⟨k, r⟩ := p
        have h2 : (if matchOpenTail r = true then some k else none) = some kw := h
        by_cases ht : matchOpenTail r = true
        · rw [if_pos ht] at h2
          cases h2
          exact findKeyword_mem hf
        · rw [if_neg ht] at h2
          cases h2
    · rw [if_neg hc] at h
      cases h

theorem searchOpen_mem {l kw : List Char} (h : searchOpen l = some kw) :
    kw ∈ directiveKeywords := by
  induction l with
  | nil => simp [searchOpen] at h
  | cons c cs ih =>
    rw [searchOpen_cons] at h
    cases hm : matchOpenAt (c :: cs) with
    | some k =>
      rw [hm] at h
      have h2 : some k = some kw := h
      cases h2
      exact matchOpenAt_mem hm
    | none =>
      rw [hm] at h
      exact ih h

theorem searchOpen_of_suffix {t kw : List Char} (pre : List Char)
    (h : matchOpenAt t = some kw) : ∃ kw', searchOpen (pre ++ t) = some kw' := by
  induction pre with
  | nil =>
    cases t with
    | nil => simp [matchOpenAt] at h
    | cons c cs =>
      refine ⟨kw, ?_⟩
      rw [List.nil_append, searchOpen_cons, h]
  | cons c pre ih =>
    rcases ih with ⟨k, hk⟩
    rw [List.cons_append]
    cases hm : matchOpenAt (c :: (pre ++ t)) with
    | some k2 =>
      refine ⟨k2, ?_⟩
      rw [searchOpen_cons, hm]
    | none =>
      refine ⟨k, ?_⟩
      rw [searchOpen_cons, hm]
      exact hk

theorem dropWhile_append_of_all {p : Char → Bool} {a : List Char} (b : List Char)
    (h : ∀ c ∈ a, p c = true) : (a ++ b).dropWhile p = b.dropWhile p := by
  induction a with
  | nil => rfl
  | cons c cs ih =>
    have hc : p c = true := h c (List.mem_cons_self c cs)
    simp only [List.cons_append, List.dropWhile_cons, hc, if_true]
    exact ih (fun x hx => h x (List.mem_cons_of_mem _ hx))

theorem not_word_of_space {c : Char} (h : isPySpace c = true) : isWordChar c = false := by
  have hc := h
  simp only [isPySpace, Bool.or_eq_true, beq_iff_eq] at hc
  rcases hc with ((((rfl | rfl) | rfl) | rfl) | rfl) | rfl <;> rfl

/-! ### Helper lemmas about the scan loop -/

theorem stepOpen_output (i : Nat) (l : List Char) (st : ScanState) :
    (stepOpen i l st).output = st.output := by
  unfold stepOpen
  cases searchOpen l <;> rfl

theorem stepClose_output (i : Nat) (l : List Char) (st : ScanState) :
    (stepClose i l st).output = st.output
    ∨ (stepClose i l st).output = st.output ++ [unmatchedMsg i] := by
  unfold stepClose
  by_cases hc : searchClose l = true
  · rw [if_pos hc]
    by_cases he : st.stack.isEmpty = true
    · rw [if_pos he]; right; rfl
    · rw [if_neg he]; left; rfl
  · rw [if_neg hc]; left; rfl

theorem stepLine_output (i : Nat) (l : List Char) (st : ScanState) :
    (stepLine i l st).output = st.output
    ∨ (stepLine i l st).output = st.output ++ [unmatchedMsg i] := by
  unfold stepLine
  rcases stepClose_output i l (stepOpen i l st) with h | h <;>
    rw [h, stepOpen_output]
  · left; rfl
  · right; rfl

theorem scanLines_output_mem :
    ∀ (ls : List (List Char)) (i : Nat) (st : ScanState) (s : List Char),
      s ∈ (scanLines i ls st).output → s ∈ st.output ∨ ∃ j, s = unmatchedMsg j := by
  intro ls
  induction ls with
  | nil => intro i st s h; exact Or.inl h
  | cons l ls ih =>
    intro i st s h
    rcases ih (i + 1) (stepLine i l st) s h with h2 | h2
    · rcases stepLine_output i l st with h3 | h3
      · rw [h3] at h2; exact Or.inl h2
      · rw [h3] at h2
        rcases List.mem_append.mp h2 with h4 | h4
        · exact Or.inl h4
        · right
          exact ⟨i, List.mem_singleton.mp h4⟩
    · exact Or.inr h2

theorem scanLines_output_append :
    ∀ (ls : List (List Char)) (i : Nat) (st : ScanState),
      ∃ t, (scanLines i ls st).output = st.output ++ t := by
  intro ls
  induction ls with
  | nil => intro i st; exact ⟨[], by simp [scanLines]⟩
  | cons l ls ih =>
    intro i st
    rcases ih (i + 1) (stepLine i l st) with ⟨t, ht⟩
    rcases stepLine_output i l st with h | h
    · exact ⟨t, by rw [show scanLines i (l :: ls) st = scanLines (i + 1) ls (stepLine i l st) from rfl, ht, h]⟩
    · refine ⟨unmatchedMsg i :: t, ?_⟩
      rw [show scanLines i (l :: ls) st = scanLines (i + 1) ls (stepLine i l st) from rfl, ht, h]
      simp

theorem stepLine_stack_kw (i : Nat) (l : List Char) (st : ScanState)
    (h : ∀ q ∈ st.stack, q.1 ∈ directiveKeywords) :
    ∀ q ∈ (stepLine i l st).stack, q.1 ∈ directiveKeywords := by
  have hopen : ∀ q ∈ (stepOpen i l st).stack, q.1 ∈ directiveKeywords := by
    unfold stepOpen
    cases hs : searchOpen l with
    | none => exact h
    | some kw =>
      intro q hq
      rcases List.mem_append.mp hq with h1 | h1
      · exact h q h1
      · rw [List.mem_singleton.mp h1]
        exact searchOpen_mem hs
  unfold stepLine stepClose
  by_cases hc : searchClose l = true
  · rw [if_pos hc]
    by_cases he : (stepOpen i l st).stack.isEmpty = true
    · rw [if_pos he]; exact hopen
    · rw [if_neg he]
      intro q hq
      exact hopen q ((List.dropLast_sublist _).subset hq)
  · rw [if_neg hc]; exact hopen

theorem scanLines_stack_kw :
    ∀ (ls : List (List Char)) (i : Nat) (st : ScanState),
      (∀ q ∈ st.stack, q.1 ∈ directiveKeywords) →
      ∀ q ∈ (scanLines i ls st).stack, q.1 ∈ directiveKeywords := by
  intro ls
  induction ls with
  | nil => intro i st h; exact h
  | cons l ls ih =>
    intro i st h
    exact ih (i + 1) (stepLine i l st) (stepLine_stack_kw i l st h)

/-! ### The printed messages are pairwise distinguishable -/

theorem ne_of_head_ne (a b : List Char) (h : a.head? ≠ b.head?) : a ≠ b :=
  fun hab => h (congrArg List.head? hab)

theorem allClosed_ne_unmatched (j : Nat) : allClosedMsg ≠ unmatchedMsg j := by
  intro h
  have h2 := congrArg List.head? h
  exact absurd (show (some 'A' : Option Char) = some 'U' from h2) (by decide)

theorem allClosed_ne_header : allClosedMsg ≠ unclosedHeader := by decide

theorem allClosed_ne_opened {kw : List Char} (hkw : kw ∈ directiveKeywords) (j : Nat) :
    allClosedMsg ≠ openedMsg kw j := by
  intro h
  have h2 := congrArg List.head? h
  fin_cases hkw <;>
    first
    | exact absurd (show (some 'A' : Option Char) = some 'i' from h2) (by decide)
    | exact absurd (show (some 'A' : Option Char) = some 'f' from h2) (by decide)
    | exact absurd (show (some 'A' : Option Char) = some 's' from h2) (by decide)
    | exact absurd (show (some 'A' : Option Char) = some 'c' from h2) (by decide)
    | exact absurd (show (some 'A' : Option Char) = some 'e' from h2) (by decide)

/-! ### Sufficiency of the canonical open-pattern shape -/

theorem findKeyword_self {kw : List Char} (hkw : kw ∈ directiveKeywords)
    (rest : List Char) (hwb : wordBoundaryOk rest = true) :
    findKeyword (kw ++ rest) directiveKeywords = some (kw, rest) := by
  fin_cases hkw <;>
    simp [directiveKeywords, findKeyword, takesPrefix, takesPrefix_append, hwb]

theorem wordBoundary_of_shape (ws1 grp ws2 post : List Char)
    (hws1 : ∀ c ∈ ws1, isPySpace c = true)
    (hws2 : ∀ c ∈ ws2, isPySpace c = true)
    (hgrp : grp = [] ∨ ∃ g, grp = '(' :: (g ++ [')']) ∧ ∀ c ∈ g, c ≠ ')') :
    wordBoundaryOk (ws1 ++ (grp ++ (ws2 ++ '{' :: post))) = true := by
  cases ws1 with
  | cons c cs =>
    show (!isWordChar c) = true
    rw [not_word_of_space (hws1 c (List.mem_cons_self c cs))]
    rfl
  | nil =>
    rcases hgrp with rfl | ⟨g, rfl, _⟩
    · cases ws2 with
      | cons c cs =>
        show (!isWordChar c) = true
        rw [not_word_of_space (hws2 c (List.mem_cons_self c cs))]
        rfl
      | nil => rfl
    · rfl

theorem matchOpenTail_eq_of_drop_brace {cs post : List Char}
    (h : cs.dropWhile isPySpace = '{' :: post) : matchOpenTail cs = true := by
  unfold matchOpenTail
  rw [h]
  rfl

theorem matchOpenTail_eq_of_drop_paren {cs t : List Char}
    (h : cs.dropWhile isPySpace = '(' :: t) :
    matchOpenTail cs =
      (match t.dropWhile (fun c => c != ')') with
       | ')' :: u =>
         (match u.dropWhile isPySpace with
          | '{' :: _ => true
          | _ => false)
       | _ => false) := by
  unfold matchOpenTail
  rw [h]
  rfl

theorem matchOpenTail_of_shape (ws1 grp ws2 post : List Char)
    (hws1 : ∀ c ∈ ws1, isPySpace c = true)
    (hws2 : ∀ c ∈ ws2, isPySpace c = true)
    (hgrp : grp = [] ∨ ∃ g, grp = '(' :: (g ++ [')']) ∧ ∀ c ∈ g, c ≠ ')') :
    matchOpenTail (ws1 ++ (grp ++ (ws2 ++ '{' :: post))) = true := by
  rcases hgrp with rfl | ⟨g, rfl, hg⟩
  · have hd : (ws1 ++ ([] ++ (ws2 ++ '{' :: post))).dropWhile isPySpace = '{' :: post := by
      rw [List.nil_append, dropWhile_append_of_all _ hws1, dropWhile_append_of_all _ hws2]
      rfl
    exact matchOpenTail_eq_of_drop_brace hd
  · have h1 : (ws1 ++ (('(' :: (g ++ [')'])) ++ (ws2 ++ '{' :: post))).dropWhile isPySpace
        = '(' :: (g ++ (')' :: (ws2 ++ '{' :: post))) := by
      rw [dropWhile_append_of_all _ hws1]
      show List.dropWhile isPySpace ('(' :: ((g ++ [')']) ++ (ws2 ++ '{' :: post))) = _
      rw [List.dropWhile_cons]
      simp [isPySpace]
    rw [matchOpenTail_eq_of_drop_paren h1]
    have h2 : (g ++ (')' :: (ws2 ++ '{' :: post))).dropWhile (fun c => c != ')')
        = ')' :: (ws2 ++ '{' :: post) := by
      rw [dropWhile_append_of_all _ (fun c hc => by simp [hg c hc])]
      rfl
    rw [h2]
    show (match (ws2 ++ '{' :: post).dropWhile isPySpace with
          | '{' :: _ => true
          | _ => false) = true
    rw [dropWhile_append_of_all _ hws2]
    rfl

theorem matchOpenAt_of_shape {kw : List Char} (hkw : kw ∈ directiveKeywords)
    (ws1 grp ws2 post : List Char)
    (hws1 : ∀ c ∈ ws1, isPySpace c = true)
    (hws2 : ∀ c ∈ ws2, isPySpace c = true)
    (hgrp : grp = [] ∨ ∃ g, grp = '(' :: (g ++ [')']) ∧ ∀ c ∈ g, c ≠ ')') :
    matchOpenAt ('@' :: (kw ++ (ws1 ++ (grp ++ (ws2 ++ '{' :: post))))) = some kw := by
  have hwb := wordBoundary_of_shape ws1 grp ws2 post hws1 hws2 hgrp
  have ht := matchOpenTail_of_shape ws1 grp ws2 post hws1 hws2 hgrp
  have key := findKeyword_self hkw (ws1 ++ (grp ++ (ws2 ++ '{' :: post))) hwb
  show (match findKeyword (kw ++ (ws1 ++ (grp ++ (ws2 ++ '{' :: post)))) directiveKeywords with
        | some (kw, rest) => if matchOpenTail rest = true then some kw else none
        | none => none) = some kw
  rw [key]
  show (if matchOpenTail (ws1 ++ (grp ++ (ws2 ++ '{' :: post))) = true then some kw else none)
      = some kw
  rw [if_pos ht]

/-! ### Stack length accounting -/

theorem stepOpen_stack_cases (i : Nat) (l : List Char) (st : ScanState) :
    (searchOpen l = none ∧ (stepOpen i l st).stack = st.stack)
    ∨ ∃ kw, searchOpen l = some kw ∧ (stepOpen i l st).stack = st.stack ++ [(kw, i)] := by
  cases hs : searchOpen l with
  | none => exact Or.inl ⟨rfl, by unfold stepOpen; rw [hs]⟩
  | some kw => exact Or.inr ⟨kw, rfl, by unfold stepOpen; rw [hs]⟩

theorem stepClose_stack_subset (i : Nat) (l : List Char) (st : ScanState) :
    (stepClose i l st).stack ⊆ st.stack := by
  unfold stepClose
  by_cases hc : searchClose l = true
  · rw [if_pos hc]
    by_cases hemp : st.stack.isEmpty = true
    · rw [if_pos hemp]; exact fun q hq => hq
    · rw [if_neg hemp]; exact (List.dropLast_sublist _).subset
  · rw [if_neg hc]; exact fun q hq => hq

theorem stepLine_length (i : Nat) (l : List Char) (st : ScanState) :
    (stepLine i l st).stack.length
      + (if searchClose l && !(stepOpen i l st).stack.isEmpty then 1 else 0)
    = st.stack.length + (if (searchOpen l).isSome then 1 else 0) := by
  have hlen1 : (stepOpen i l st).stack.length
      = st.stack.length + (if (searchOpen l).isSome then 1 else 0) := by
    rcases stepOpen_stack_cases i l st with ⟨hs, he⟩ | ⟨kw, hs, he⟩ <;> rw [he, hs] <;> simp
  unfold stepLine stepClose
  by_cases hc : searchClose l = true
  · by_cases hemp : (stepOpen i l st).stack.isEmpty = true
    · rw [if_pos hc, if_pos hemp]
      have hz : (stepOpen i l st).stack.length = 0 := by
        rw [List.isEmpty_iff] at hemp
        rw [hemp]
        rfl
      simp only [hc, hemp, Bool.not_true, Bool.and_false]
      simp only [Bool.false_eq_true, if_false]
      omega
    · rw [if_pos hc, if_neg hemp]
      have hemp' : (stepOpen i l st).stack.isEmpty = false := by
        revert hemp; cases (stepOpen i l st).stack.isEmpty <;> simp
      have hne : (stepOpen i l st).stack ≠ [] := by
        intro hcontra
        rw [hcontra] at hemp'
        exact absurd hemp' (by decide)
      have hpos : 0 < (stepOpen i l st).stack.length := List.length_pos.mpr hne
      simp only [hc, hemp', Bool.not_false, Bool.and_true, if_true, List.length_dropLast]
      omega
  · have hc' : searchClose l = false := by
      revert hc; cases searchClose l <;> simp
    rw [if_neg hc]
    simp only [hc', Bool.false_and, Bool.false_eq_true, if_false]
    omega

theorem stepLine_stack_bounds (i : Nat) (l : List Char) (st : ScanState) :
    (stepLine i l st).stack.length ≤ st.stack.length + 1
    ∧ st.stack.length ≤ (stepLine i l st).stack.length + 1 := by
  have h := stepLine_length i l st
  have h1 : (if searchClose l && !(stepOpen i l st).stack.isEmpty then 1 else 0) ≤ 1 := by
    split <;> omega
  have h2 : (if (searchOpen l).isSome then 1 else 0) ≤ 1 := by
    split <;> omega
  omega

theorem scanLines_length_eq :
    ∀ (ls : List (List Char)) (i : Nat) (st : ScanState),
      (scanLines i ls st).stack.length + popsCount i ls st
        = st.stack.length + opensCount ls := by
  intro ls
  induction ls with
  | nil => intro i st; simp [scanLines, popsCount, opensCount]
  | cons l ls ih =>
    intro i st
    have hstep := stepLine_length i l st
    have hrec := ih (i + 1) (stepLine i l st)
    have hopens : opensCount (l :: ls)
        = opensCount ls + (if (searchOpen l).isSome then 1 else 0) := by
      simp [opensCount, List.countP_cons]
    show (scanLines (i + 1) ls (stepLine i l st)).stack.length
        + ((if searchClose l && !(stepOpen i l st).stack.isEmpty then 1 else 0)
            + popsCount (i + 1) ls (stepLine i l st))
      = st.stack.length + opensCount (l :: ls)
    rw [hopens]
    omega

/-! ### Stack order invariants -/

theorem push_pairwise {st : List (List Char × Nat)} {kw : List Char} {i : Nat}
    (hb : ∀ q ∈ st, q.2 < i) (hp : st.Pairwise (fun a b => a.2 < b.2)) :
    (st ++ [(kw, i)]).Pairwise (fun a b => a.2 < b.2) := by
  refine List.pairwise_append.mpr ⟨hp, List.pairwise_singleton _ _, ?_⟩
  intro a ha b hb2
  rw [List.mem_singleton.mp hb2]
  exact hb a ha

theorem stepLine_stack_bound_inv (i : Nat) (l : List Char) (st : ScanState)
    (hb : ∀ q ∈ st.stack, q.2 < i) :
    ∀ q ∈ (stepLine i l st).stack, q.2 < i + 1 := by
  have hopen : ∀ q ∈ (stepOpen i l st).stack, q.2 < i + 1 := by
    rcases stepOpen_stack_cases i l st with ⟨_, he⟩ | ⟨kw, _, he⟩ <;> rw [he]
    · exact fun q hq => Nat.lt_succ_of_lt (hb q hq)
    · intro q hq
      rcases List.mem_append.mp hq with h1 | h1
      · exact Nat.lt_succ_of_lt (hb q h1)
      · rw [List.mem_singleton.mp h1]; exact Nat.lt_succ_self i
  exact fun q hq => hopen q (stepClose_stack_subset i l (stepOpen i l st) hq)

theorem stepClose_pairwise (i : Nat) (l : List Char) (st : ScanState)
    (hp : st.stack.Pairwise (fun a b => a.2 < b.2)) :
    (stepClose i l st).stack.Pairwise (fun a b => a.2 < b.2) := by
  unfold stepClose
  by_cases hc : searchClose l = true
  · rw [if_pos hc]
    by_cases hemp : st.stack.isEmpty = true
    · rw [if_pos hemp]; exact hp
    · rw [if_neg hemp]; exact hp.sublist (List.dropLast_sublist _)
  · rw [if_neg hc]; exact hp

theorem stepLine_pairwise (i : Nat) (l : List Char) (st : ScanState)
    (hb : ∀ q ∈ st.stack, q.2 < i)
    (hp : st.stack.Pairwise (fun a b => a.2 < b.2)) :
    (stepLine i l st).stack.Pairwise (fun a b => a.2 < b.2) := by
  have hopen : (stepOpen i l st).stack.Pairwise (fun a b => a.2 < b.2) := by
    rcases stepOpen_stack_cases i l st with ⟨_, he⟩ | ⟨kw, _, he⟩ <;> rw [he]
    · exact hp
    · exact push_pairwise hb hp
  exact stepClose_pairwise i l (stepOpen i l st) hopen

theorem scanLines_pairwise :
    ∀ (ls : List (List Char)) (i : Nat) (st : ScanState),
      (∀ q ∈ st.stack, q.2 < i) → st.stack.Pairwise (fun a b => a.2 < b.2) →
      (scanLines i ls st).stack.Pairwise (fun a b => a.2 < b.2) := by
  intro ls
  induction ls with
  | nil => intro i st _ hp; exact hp
  | cons l ls ih =>
    intro i st hb hp
    exact ih (i + 1) (stepLine i l st)
      (stepLine_stack_bound_inv i l st hb) (stepLine_pairwise i l st hb hp)

/-! ### Characterization of the close pattern -/

theorem searchClose_iff (l : List Char) :
    searchClose l = true ↔ ∃ a b, l = a ++ '}' :: b ∧ ∀ c ∈ a, isPySpace c = true := by
  constructor
  · intro h
    have hx : ∃ b, l.dropWhile isPySpace = '}' :: b := by
      unfold searchClose at h
      split at h
      · next heq => exact ⟨_, heq⟩
      · cases h
    rcases hx with ⟨b, hd⟩
    refine ⟨l.takeWhile isPySpace, b, ?_, fun c hc2 => List.mem_takeWhile_imp hc2⟩
    conv_lhs => rw [← List.takeWhile_append_dropWhile isPySpace l]
    rw [hd]
  · rintro ⟨a, b, rfl, ha⟩
    unfold searchClose
    rw [dropWhile_append_of_all _ ha]
    rfl

/-! ### The scan loop as a relation -/

theorem scanRel_run : ∀ (ls : List (List Char)) (i : Nat) (st : ScanState),
    ScanRel i ls st (scanLines i ls st) := by
  intro ls
  induction ls with
  | nil => intro i st; exact ScanRel.nil i st
  | cons l ls ih =>
    intro i st
    exact ScanRel.cons i l ls st _ (ih (i + 1) (stepLine i l st))

theorem scanRel_det {i : Nat} {ls : List (List Char)} {st st1 st2 : ScanState}
    (h1 : ScanRel i ls st st1) (h2 : ScanRel i ls st st2) : st1 = st2 := by
  induction h1 with
  | nil i st => cases h2; rfl
  | cons i l ls st st' h ih =>
    cases h2 with
    | cons _ _ _ _ _ h2' => exact ih h2'

/-! ### The claims -/

/-- Claim C1, counterexample: on the one-line document `}` the program
emits an unmatched-closing-brace event and still emits
`All control blocks closed` at the end, so the all-balanced message is
not conditional on the absence of unmatched-closer events. -/
theorem allClosed_despite_unmatched :
    scan [['}']] = [unmatchedMsg 1, allClosedMsg]
    ∧ allClosedMsg ∈ scan [['}']]
    ∧ unmatchedMsg 1 ∈ scan [['}']] := by decide

/-- Claim C1, amended: the message `All control blocks closed` is emitted
at the end of the scan if and only if the stack is empty after the final
line, regardless of whether unmatched-closing-brace events were emitted
during the scan. -/
theorem allClosed_iff_empty_stack (doc : List (List Char)) :
    allClosedMsg ∈ scan doc ↔ (scanLines 1 doc initState).stack = [] := by
  constructor
  · intro hmem
    by_contra hne
    have hps : (scanLines 1 doc initState).stack.isEmpty = false := by
      cases hs : (scanLines 1 doc initState).stack with
      | nil => exact absurd hs hne
      | cons a t => rfl
    have hrep : scan doc = (scanLines 1 doc initState).output
        ++ unclosedHeader
          :: (scanLines 1 doc initState).stack.map (fun p => openedMsg p.1 p.2) := by
      unfold scan finalReport
      rw [hps]
      simp
    rw [hrep] at hmem
    rcases List.mem_append.mp hmem with h1 | h1
    · rcases scanLines_output_mem doc 1 initState _ h1 with h2 | ⟨j, h2⟩
      · exact absurd h2 (by simp [initState])
      · exact allClosed_ne_unmatched j h2
    · rcases List.mem_cons.mp h1 with h2 | h2
      · exact allClosed_ne_header h2
      · rcases List.mem_map.mp h2 with ⟨p, hp, hpe⟩
        have hkw : p.1 ∈ directiveKeywords :=
          scanLines_stack_kw doc 1 initState (fun q hq => absurd hq (List.not_mem_nil q)) p hp
        exact allClosed_ne_opened hkw p.2 hpe.symm
  · intro he
    unfold scan finalReport
    rw [he]
    simp

/-- Claim C2: evaluation of the code at the claimed scenario.  The open
pattern allows only whitespace and one optional parenthesized group
between the keyword and the brace, so the line `@case 'a' {` does not
push anything (even though the source comment says `@case 'x' {` should
be detected), and the five-line document prints
`Unmatched closing brace at 5` and then `All control blocks closed`
instead of the claimed unclosed-blocks report. -/
theorem case_quote_line_behavior :
    searchOpen "@case 'a' \x7b".toList = none
    ∧ scan ["@switch (x) \x7b".toList, "@case 'a' \x7b".toList, "text".toList,
        "\x7d @case".toList, "\x7d ".toList]
      = [unmatchedMsg 5, allClosedMsg] := by decide

/-- Claim C3, counterexample: the line `@if x {` contains `@` followed by
the keyword `if` followed (with intervening content ` x `) by `{`, yet
the open pattern does not match it: arbitrary intervening content is not
allowed between the keyword and the brace. -/
theorem open_pattern_rejects_intervening_text :
    '@' :: (['i', 'f'] ++ (" x ".toList ++ '{' :: [])) = "@if x \x7b".toList
    ∧ searchOpen "@if x \x7b".toList = none := by decide

/-- Claim C3, amended: the opening pattern matches whenever the line
contains `@` followed by one of the six directive keywords at a word
boundary, followed by optional whitespace, an optional parenthesized
group containing no closing parenthesis, optional whitespace and then an
opening brace; on a match the keyword captured by the first match on the
line is pushed with the current line number. -/
theorem open_pattern_sufficiency
    (pre kw ws1 grp ws2 post : List Char) (i : Nat) (st : ScanState)
    (hkw : kw ∈ directiveKeywords)
    (hws1 : ∀ c ∈ ws1, isPySpace c = true)
    (hws2 : ∀ c ∈ ws2, isPySpace c = true)
    (hgrp : grp = [] ∨ ∃ g, grp = '(' :: (g ++ [')']) ∧ ∀ c ∈ g, c ≠ ')') :
    ∃ kw', searchOpen (pre ++ '@' :: (kw ++ (ws1 ++ (grp ++ (ws2 ++ '{' :: post))))) = some kw'
      ∧ kw' ∈ directiveKeywords
      ∧ (stepOpen i (pre ++ '@' :: (kw ++ (ws1 ++ (grp ++ (ws2 ++ '{' :: post))))) st).stack
          = st.stack ++ [(kw', i)] := by
  have hm := matchOpenAt_of_shape hkw ws1 grp ws2 post hws1 hws2 hgrp
  rcases searchOpen_of_suffix pre hm with ⟨kw', hs⟩
  refine ⟨kw', hs, searchOpen_mem hs, ?_⟩
  unfold stepOpen
  rw [hs]

/-- Claim C3, witness: the amended statement applied to the concrete line
`@if (x) {`. -/
theorem open_pattern_sufficiency_witness :
    ∃ kw', searchOpen
        ([] ++ '@' :: (['i', 'f'] ++ ([' '] ++ (('(' :: (['x'] ++ [')']))
          ++ ([' '] ++ '{' :: []))))) = some kw'
      ∧ kw' ∈ directiveKeywords
      ∧ (stepOpen 1 ([] ++ '@' :: (['i', 'f'] ++ ([' '] ++ (('(' :: (['x'] ++ [')']))
          ++ ([' '] ++ '{' :: []))))) initState).stack
        = initState.stack ++ [(kw', 1)] :=
  open_pattern_sufficiency [] ['i', 'f'] [' '] ('(' :: (['x'] ++ [')'])) [' '] [] 1 initState
    (by decide) (by decide) (by decide) (Or.inr ⟨['x'], rfl, by decide⟩)

/-- Claim C4: on the document `@if (x) {` / `} @else {` / `}` the output
is exactly `All control blocks closed`; the line `} @else {` both pushes
an `else` entry (the open check runs first) and pops one entry (the close
check runs second), so its net effect on the stack is zero.  The last
conjunct shows the order: on an empty stack the same line pushes and then
pops its own entry without emitting an unmatched-closer event. -/
theorem else_line_pushes_and_pops :
    scan ["@if (x) \x7b".toList, "\x7d @else \x7b".toList, ['}']] = [allClosedMsg]
    ∧ (stepOpen 2 "\x7d @else \x7b".toList
        { stack := [(['i', 'f'], 1)], output := [] }).stack
      = [(['i', 'f'], 1), (['e', 'l', 's', 'e'], 2)]
    ∧ stepLine 2 "\x7d @else \x7b".toList { stack := [(['i', 'f'], 1)], output := [] }
      = { stack := [(['i', 'f'], 1)], output := [] }
    ∧ stepLine 1 "\x7d @else \x7b".toList initState = initState := by decide

/-- Claim C5: at every point of the scan, stack size plus pops performed
equals initial stack size plus opening-pattern matches seen (so the stack
size is exactly opens minus pops, and never goes below zero); and a close
match on an empty stack leaves the stack empty and appends the
unmatched-closer message instead of popping. -/
theorem stack_size_invariant :
    (∀ (i : Nat) (ls : List (List Char)) (st : ScanState),
        (scanLines i ls st).stack.length + popsCount i ls st
          = st.stack.length + opensCount ls)
    ∧ ∀ (i : Nat) (l : List Char) (st : ScanState),
        searchClose l = true → (stepOpen i l st).stack = [] →
          (stepLine i l st).stack = []
          ∧ (stepLine i l st).output = st.output ++ [unmatchedMsg i] := by
  constructor
  · intro i ls st
    exact scanLines_length_eq ls i st
  · intro i l st hc hemp
    have he : (stepOpen i l st).stack.isEmpty = true := by rw [hemp]; rfl
    unfold stepLine stepClose
    rw [if_pos hc, if_pos he]
    constructor
    · exact hemp
    · show (stepOpen i l st).output ++ [unmatchedMsg i] = st.output ++ [unmatchedMsg i]
      rw [stepOpen_output]

/-- Claim C5, witness: the invariant evaluated on the one-line document
`}`, and the empty-stack close behaviour on that line. -/
theorem stack_size_invariant_witness :
    ((scanLines 1 [['}']] initState).stack.length + popsCount 1 [['}']] initState
        = initState.stack.length + opensCount [['}']])
    ∧ (stepLine 1 ['}'] initState).stack = [] :=
  ⟨stack_size_invariant.1 1 [['}']] initState,
    (stack_size_invariant.2 1 ['}'] initState (by decide) (by decide)).1⟩

/-- Claim C6: the document `}` prints `Unmatched closing brace at 1` and
then `All control blocks closed`; an unmatched closer does not abort the
scan: on `}` / `}` the second line is still processed and reported, and
in general the loop only ever appends to the output while consuming every
line. -/
theorem unmatched_does_not_abort :
    scan [['}']] = [unmatchedMsg 1, allClosedMsg]
    ∧ scan [['}'], ['}']] = [unmatchedMsg 1, unmatchedMsg 2, allClosedMsg]
    ∧ ∀ (i : Nat) (ls : List (List Char)) (st : ScanState),
        ∃ t, (scanLines i ls st).output = st.output ++ t :=
  ⟨by decide, by decide, fun i ls st => scanLines_output_append ls i st⟩

/-- Claim C7: when the scan ends with a non-empty stack, the report is
the events so far followed by `Unclosed control blocks:` and one
`<keyword> opened at <line>` line per remaining entry, in stack order;
the remaining entries carry strictly increasing line numbers, so they are
listed in the order the blocks were opened (earliest first). -/
theorem unclosed_report_order (doc : List (List Char))
    (h : (scanLines 1 doc initState).stack ≠ []) :
    scan doc = (scanLines 1 doc initState).output
        ++ unclosedHeader
          :: (scanLines 1 doc initState).stack.map (fun p => openedMsg p.1 p.2)
    ∧ (scanLines 1 doc initState).stack.Pairwise (fun a b => a.2 < b.2) := by
  constructor
  · have hps : (scanLines 1 doc initState).stack.isEmpty = false := by
      cases hs : (scanLines 1 doc initState).stack with
      | nil => exact absurd hs h
      | cons a t => rfl
    unfold scan finalReport
    rw [hps]
    simp
  · exact scanLines_pairwise doc 1 initState
      (fun q hq => absurd hq (List.not_mem_nil q)) List.Pairwise.nil

/-- Claim C7, witness: the unclosed-blocks report for the one-line
document `@if (x) {`. -/
theorem unclosed_report_order_witness :
    scan [['@', 'i', 'f', ' ', '(', 'x', ')', ' ', '{']]
      = (scanLines 1 [['@', 'i', 'f', ' ', '(', 'x', ')', ' ', '{']] initState).output
          ++ unclosedHeader
            :: (scanLines 1 [['@', 'i', 'f', ' ', '(', 'x', ')', ' ', '{']] initState).stack.map
              (fun p => openedMsg p.1 p.2)
    ∧ (scanLines 1 [['@', 'i', 'f', ' ', '(', 'x', ')', ' ', '{']] initState).stack.Pairwise
        (fun a b => a.2 < b.2) :=
  unclosed_report_order [['@', 'i', 'f', ' ', '(', 'x', ')', ' ', '{']] (by decide)

/-- Claim C8: the close pattern matches a line exactly when, after
stripping leading whitespace, the line begins with `}` (everything after
the brace, including an optional `@else`, `@empty` or `@case`, is
irrelevant to matching); and the close check of a line performs at most
one action: the stack shrinks by at most one and the output grows by at
most one line. -/
theorem close_pattern_characterization :
    (∀ l : List Char, searchClose l = true ↔
        ∃ a b, l = a ++ '}' :: b ∧ ∀ c ∈ a, isPySpace c = true)
    ∧ ∀ (i : Nat) (l : List Char) (st : ScanState),
        st.stack.length ≤ (stepClose i l st).stack.length + 1
        ∧ (stepClose i l st).output.length ≤ st.output.length + 1 := by
  constructor
  · exact searchClose_iff
  · intro i l st
    unfold stepClose
    by_cases hc : searchClose l = true
    · rw [if_pos hc]
      by_cases hemp : st.stack.isEmpty = true
      · rw [if_pos hemp]
        constructor
        · show st.stack.length ≤ st.stack.length + 1
          omega
        · show (st.output ++ [unmatchedMsg i]).length ≤ st.output.length + 1
          simp
      · rw [if_neg hemp]
        constructor
        · show st.stack.length ≤ st.stack.dropLast.length + 1
          have hne : st.stack ≠ [] := fun hx => hemp (by rw [hx]; rfl)
          have hpos := List.length_pos.mpr hne
          rw [List.length_dropLast]
          omega
        · show st.output.length ≤ st.output.length + 1
          omega
    · rw [if_neg hc]
      exact ⟨by omega, by omega⟩

/-- Claim C9: the scan is deterministic: any two runs of the loop
relation on the same document from the initial state end in the same
state, hence print the same report. -/
theorem scan_deterministic (doc : List (List Char)) (st1 st2 : ScanState)
    (h1 : ScanRel 1 doc initState st1) (h2 : ScanRel 1 doc initState st2) :
    finalReport st1 = finalReport st2 := by
  rw [scanRel_det h1 h2]

/-- Claim C9, witness: determinism applied to two runs on the one-line
document `}`. -/
theorem scan_deterministic_witness :
    finalReport (scanLines 1 [['}']] initState)
      = finalReport (scanLines 1 [['}']] initState) :=
  scan_deterministic [['}']] _ _ (scanRel_run [['}']] 1 initState) (scanRel_run [['}']] 1 initState)

/-- Claim C10: each line changes the stack size by at most one in each
direction; the line `@if (x) { @for (y) {` pushes only the first
matching keyword `if`, and the line `}}` pops only once even on a stack
of two entries. -/
theorem per_line_stack_delta :
    (∀ (i : Nat) (l : List Char) (st : ScanState),
        (stepLine i l st).stack.length ≤ st.stack.length + 1
        ∧ st.stack.length ≤ (stepLine i l st).stack.length + 1)
    ∧ searchOpen "@if (x) \x7b @for (y) \x7b".toList = some ['i', 'f']
    ∧ (stepLine 1 ['}', '}']
        { stack := [(['i', 'f'], 0), (['f', 'o', 'r'], 0)], output := [] }).stack.length = 1 :=
  ⟨stepLine_stack_bounds, by decide, by decide⟩
